import Mathlib

/-!
Verification of the hybrid search and relevance-ranking engine of the
git-context tool.

The development shallowly embeds the search core:

* the query parser `parseSearchQuery` (cmd/search.go),
* the lexical scorer `calculateRelevance` (cmd/search.go),
* the vector math `CosineSimilarity` / `Magnitude` (internal/embeddings),
* the embedding codec `WriteEmbedding` / `ReadEmbedding` (internal/embeddings),
* the per-candidate scoring and ranking loop of `runSearch` (cmd/search.go).

Modelling conventions:

* Go strings are modelled as `List Char` (`GoStr`); the byte-level scan of
  the parser coincides with the character-level scan on the ASCII inputs the
  tool manipulates, and `strings.ToLower` is modelled by `Char.toLower`.
* `float64` values are modelled as elements of an abstract linear ordered
  field `R`; `math.Sqrt` is an explicit function parameter.  The reference
  instantiation is `R := ℝ` with `Real.sqrt` (exact real arithmetic, the
  standard idealisation of floating point); `R := ℚ` is used to evaluate
  witnesses.  The embedding codec, whose contract is bit-exactness, is
  instead modelled at the level of 64-bit patterns and bytes.
* Effectful steps of `runSearch` (git show, temp-file I/O, the Ollama query
  embedding call) are external collaborators; their outcomes are explicit
  inputs of the model, and the fallible pure functions return `Except`.
-/

/-- Go strings, modelled as lists of characters. -/
abbrev GoStr := List Char

/-- Model of `strings.ToLower` (character-wise lowercasing, exact on ASCII). -/
def toLowerStr (s : GoStr) : GoStr := s.map Char.toLower

/-- Whitespace test used by `strings.Fields` (ASCII whitespace). -/
def isSpaceChar (c : Char) : Bool :=
  c = ' ' || c = '\t' || c = '\n' || c = '\r' || c = Char.ofNat 11 || c = Char.ofNat 12

/-- Helper for `containsSub` and `countSub`: is `p` a prefix of `s`? -/
def isPrefixStr : GoStr → GoStr → Bool
  | [], _ => true
  | _ :: _, [] => false
  | p :: ps, c :: cs => p = c && isPrefixStr ps cs

/-- Model of Go `strings.Contains s sub`: `sub` occurs as a contiguous
substring of `s` (the empty string is contained in every string). -/
def containsSub : GoStr → GoStr → Bool
  | [], sub => isPrefixStr sub []
  | c :: t, sub => isPrefixStr sub (c :: t) || containsSub t sub

/-- Scan step of `countSub`: walk the string left to right; while `skip`
is positive the scanner is still inside the previously matched occurrence
(Go advances past the whole match), otherwise a prefix match counts one
occurrence and skips the remaining `sub.length - 1` characters of it. -/
def countSubAux (sub : GoStr) : GoStr → Nat → Nat
  | [], _ => 0
  | _ :: t, skip + 1 => countSubAux sub t skip
  | c :: t, 0 =>
    if isPrefixStr sub (c :: t) then 1 + countSubAux sub t (sub.length - 1)
    else countSubAux sub t 0

/-- Model of Go `strings.Count s sub`: the number of non-overlapping
occurrences of `sub` in `s`, scanning left to right and skipping the length
of `sub` after each match; for the empty substring Go returns `len s + 1`. -/
def countSub (s sub : GoStr) : Nat :=
  if sub = [] then s.length + 1 else countSubAux sub s 0

/-- Scan step of `fields`: accumulate the current word (reversed) and emit
it when whitespace or the end of the string is reached. -/
def fieldsAux : GoStr → GoStr → List GoStr
  | [], acc => if acc = [] then [] else [acc.reverse]
  | c :: cs, acc =>
    if isSpaceChar c then
      if acc = [] then fieldsAux cs [] else acc.reverse :: fieldsAux cs []
    else fieldsAux cs (c :: acc)

/-- Model of Go `strings.Fields`: split on runs of whitespace, returning the
maximal non-whitespace words in order. -/
def fields (s : GoStr) : List GoStr := fieldsAux s []

/-- The double-quote character that delimits exact phrases in a query. -/
def dquote : Char := Char.ofNat 34

/-- The parsed query record `searchQuery` of cmd/search.go: `+term` tokens
(`required`), `-term` tokens (`excluded`), double-quoted spans (`phrases`)
and the remaining bare words (`normal`). -/
structure searchQuery where
  required : List GoStr
  excluded : List GoStr
  phrases : List GoStr
  normal : List GoStr
deriving DecidableEq, Repr

/-- The quote-scanning loop of `parseSearchQuery` (cmd/search.go): walk the
query once tracking `inQuote` and the phrase accumulator `currentPhrase`;
a closing quote appends the lowercased non-empty accumulator to the phrase
list, characters outside quotes accumulate into the `remaining` string.
Returns (phrases, remaining); an accumulator still open at the end of the
input is discarded. -/
def scanQuery : List Char → Bool → GoStr → (List GoStr × GoStr)
  | [], _, _ => ([], [])
  | c :: cs, inQuote, currentPhrase =>
    if c = dquote then
      if inQuote then
        let r := scanQuery cs false []
        (if currentPhrase ≠ [] then toLowerStr currentPhrase :: r.1 else r.1, r.2)
      else scanQuery cs true currentPhrase
    else if inQuote then scanQuery cs inQuote (currentPhrase ++ [c])
    else
      let r := scanQuery cs inQuote currentPhrase
      (r.1, c :: r.2)

/-- The word-classification loop of `parseSearchQuery` (cmd/search.go):
a word starting with `+` (and longer than the prefix) is required, one
starting with `-` is excluded, anything else is a normal term; a bare `+`
or `-` is dropped.  Returns (required, excluded, normal). -/
def classifyWords : List GoStr → (List GoStr × List GoStr × List GoStr)
  | [] => ([], [], [])
  | word :: ws =>
    let r := classifyWords ws
    match word with
    | [] => r
    | c :: rest =>
      if c = '+' then
        if rest ≠ [] then (toLowerStr rest :: r.1, r.2.1, r.2.2) else r
      else if c = '-' then
        if rest ≠ [] then (r.1, toLowerStr rest :: r.2.1, r.2.2) else r
      else (r.1, r.2.1, toLowerStr (c :: rest) :: r.2.2)

/-- Model of `parseSearchQuery` (cmd/search.go): extract quoted phrases in a
single scan, then split the remaining text on whitespace and classify each
word by its `+`/`-` prefix. -/
def parseSearchQuery (query : GoStr) : searchQuery :=
  let s := scanQuery query false []
  let c := classifyWords (fields s.2)
  { required := c.1, excluded := c.2.1, phrases := s.1, normal := c.2.2 }

/-- The snapshot metadata fields read by the search command
(internal/models Metadata): topic, free-text notes, related branch, tag
list, and the name of the stored embedding file (empty when absent). -/
structure Metadata where
  topic : GoStr
  notes : GoStr
  relatedBranch : GoStr
  tags : List GoStr
  embedding : GoStr
deriving DecidableEq, Repr

/-- The searchable text blob of `calculateRelevance` (cmd/search.go):
`strings.ToLower(fmt.Sprintf("%s %s %s %v", topic, notes, relatedBranch,
tags))`, where `%v` renders a Go string slice as `[a b c]`. -/
def searchText (m : Metadata) : GoStr :=
  toLowerStr (m.topic ++ [' '] ++ m.notes ++ [' '] ++ m.relatedBranch ++ [' '] ++
    ('[' :: List.intercalate [' '] m.tags ++ [']']))

/-- Model of `calculateRelevance` (cmd/search.go): gate on excluded /
required / phrase tokens, returning `(0, true)` when a gate fires, otherwise
accumulate the keyword score over `normal ++ required` terms (10 per
non-overlapping occurrence in the blob, +50 for a topic match, +30 per
matching tag) and the phrase bonuses (+100 in the blob, +150 in the topic). -/
def calculateRelevance (query : searchQuery) (metadata : Metadata) : Int × Bool :=
  let searchableText := searchText metadata
  if query.excluded.any (fun ex => containsSub searchableText ex) then (0, true)
  else if query.required.any (fun rq => !containsSub searchableText rq) then (0, true)
  else if query.phrases.any (fun ph => !containsSub searchableText ph) then (0, true)
  else
    let allTerms := query.normal ++ query.required
    let score : Int := allTerms.foldl (fun score word =>
      let score := score + (countSub searchableText word : Int) * 10
      let score := if containsSub (toLowerStr metadata.topic) word then score + 50 else score
      metadata.tags.foldl
        (fun score tag => if containsSub (toLowerStr tag) word then score + 30 else score)
        score) 0
    let score := query.phrases.foldl (fun score phrase =>
      let score := if containsSub searchableText phrase then score + 100 else score
      if containsSub (toLowerStr metadata.topic) phrase then score + 150 else score) score
    (score, false)

mutual

/-- Specification view of the quote scan (follows the claim wording): the
characters of the query that lie outside every double-quoted span, with the
content of an unterminated trailing span discarded. -/
def outsideQuotes : List Char → GoStr
  | [] => []
  | c :: cs => if c = dquote then afterOpen cs else c :: outsideQuotes cs

/-- Specification view, inside an open quoted span: characters up to the
closing quote belong to the span, the rest of the string is processed
outside quotes again; with no closing quote nothing survives. -/
def afterOpen : List Char → GoStr
  | [] => []
  | c :: cs => if c = dquote then outsideQuotes cs else afterOpen cs

end

mutual

/-- Specification view of the quote scan: the raw contents of the closed
double-quoted spans of the query, in order; an unterminated span
contributes nothing. -/
def closedSpans : List Char → List GoStr
  | [] => []
  | c :: cs => if c = dquote then spanFrom cs [] else closedSpans cs

/-- Specification view, inside an open quoted span with accumulated content
`acc`: the span closes at the next quote (yielding `acc` plus the
intervening characters), or is discarded at the end of the input. -/
def spanFrom : List Char → GoStr → List GoStr
  | [], _ => []
  | c :: cs, acc => if c = dquote then acc :: closedSpans cs else spanFrom cs (acc ++ [c])

end

/-- The scan of `parseSearchQuery` computes exactly the spec views: the
remaining text is the outside-quotes text, and the phrase list is the list
of lowercased non-empty closed-span contents. -/
theorem scanQuery_spec (l : List Char) :
    (scanQuery l false [] =
      (((closedSpans l).filter (fun p => p ≠ [])).map toLowerStr, outsideQuotes l)) ∧
    (∀ acc, scanQuery l true acc =
      (((spanFrom l acc).filter (fun p => p ≠ [])).map toLowerStr, afterOpen l)) := by
  induction l with
  | nil =>
    refine ⟨by simp [scanQuery, closedSpans, outsideQuotes], fun acc => ?_⟩
    simp [scanQuery, spanFrom, afterOpen]
  | cons c cs ih =>
    constructor
    · by_cases hc : c = dquote
      · simp [scanQuery, hc, closedSpans, outsideQuotes, ih.2 []]
      · simp [scanQuery, hc, closedSpans, outsideQuotes, ih.1]
    · intro acc
      by_cases hc : c = dquote
      · by_cases hacc : acc = []
        · simp [scanQuery, hc, hacc, spanFrom, afterOpen, ih.1]
        · simp [scanQuery, hc, hacc, spanFrom, afterOpen, ih.1]
      · simp [scanQuery, hc, spanFrom, afterOpen, ih.2 (acc ++ [c])]

/-- Inside a quoted span that never closes, the scan discards everything:
phrase accumulator and the rest of the input produce nothing. -/
theorem scanQuery_open_discard :
    ∀ (suf : List Char), dquote ∉ suf → ∀ acc, scanQuery suf true acc = ([], []) := by
  intro suf
  induction suf with
  | nil => intro _ acc; simp [scanQuery]
  | cons c cs ih =>
    intro h acc
    have hc : ¬ c = dquote := fun e => h (by simp [e])
    have h' : dquote ∉ cs := fun m => h (List.mem_cons_of_mem _ m)
    simp [scanQuery, hc, ih h']

/-- Appending an unterminated quoted span to a query does not change the
scan result: the partially accumulated phrase content is dropped.  The
parity hypothesis states that scanning `l` ends in state `b`. -/
theorem scan_discard (l suf : List Char) (hsuf : dquote ∉ suf) :
    ∀ (b : Bool) cur, (List.count dquote l) % 2 = (if b then 1 else 0) →
      scanQuery (l ++ dquote :: suf) b cur = scanQuery l b cur := by
  induction l with
  | nil =>
    intro b cur hb
    cases b with
    | true => simp at hb
    | false =>
      simp only [List.nil_append]
      simp [scanQuery, scanQuery_open_discard suf hsuf cur]
  | cons c cs ih =>
    intro b cur hb
    by_cases hc : c = dquote
    · subst hc
      have hcount : (List.count dquote (dquote :: cs)) = List.count dquote cs + 1 := by
        simp [List.count_cons]
      rw [hcount] at hb
      cases b with
      | false =>
        have h1 : (List.count dquote cs) % 2 = 1 := by simp at hb; omega
        simp [scanQuery, ih true cur (by simpa using h1)]
      | true =>
        have h0 : (List.count dquote cs) % 2 = 0 := by simp at hb; omega
        simp [scanQuery, ih false [] (by simpa using h0)]
    · have hcount : (List.count dquote (c :: cs)) = List.count dquote cs := by
        simp [List.count_cons, hc]
      rw [hcount] at hb
      cases b with
      | false => simp [scanQuery, hc, ih false cur hb]
      | true => simp [scanQuery, hc, ih true (cur ++ [c]) hb]

/-- C8: the tokens in `required`, `excluded` and `normal` are classified
from the outside-quotes text only, so characters inside a double-quoted
span never reach those sets; a closed quoted span contributes exactly its
non-empty, lowercased content, and only to `phrases`; and a quote opened
but never closed has its partially accumulated content silently discarded
from all four sets (appending an unterminated span changes nothing). -/
theorem C8_quoted_spans_isolated :
    (∀ q : GoStr,
      parseSearchQuery q =
        { required := (classifyWords (fields (outsideQuotes q))).1,
          excluded := (classifyWords (fields (outsideQuotes q))).2.1,
          phrases := ((closedSpans q).filter (fun p => p ≠ [])).map toLowerStr,
          normal := (classifyWords (fields (outsideQuotes q))).2.2 }) ∧
    (∀ pre suf : GoStr, (List.count dquote pre) % 2 = 0 → dquote ∉ suf →
      parseSearchQuery (pre ++ dquote :: suf) = parseSearchQuery pre) := by
  constructor
  · intro q
    rw [parseSearchQuery]
    simp [(scanQuery_spec q).1]
  · intro pre suf h0 hn
    rw [parseSearchQuery, parseSearchQuery,
      scan_discard pre suf hn false [] (by simpa using h0)]

/-- Witness for C8 at a concrete query: `+go x` followed by an unterminated
quoted span `"abc`. -/
theorem C8_quoted_spans_isolated_witness :
    ((List.count dquote ("+go x".toList)) % 2 = 0 ∧ dquote ∉ "abc".toList) ∧
      parseSearchQuery ("+go x".toList ++ dquote :: "abc".toList) =
        parseSearchQuery ("+go x".toList) :=
  ⟨⟨by decide, by decide⟩,
    C8_quoted_spans_isolated.2 ("+go x".toList) ("abc".toList) (by decide) (by decide)⟩

/-- Rewrites a left fold whose step adds an item contribution into the sum
of the contributions. -/
theorem foldl_add_shift {α : Type} (g : Int → α → Int) (f : α → Int)
    (hg : ∀ s a, g s a = s + f a) :
    ∀ (l : List α) (i : Int), l.foldl g i = i + (l.map f).sum := by
  intro l
  induction l with
  | nil => intro i; simp
  | cons a t ih =>
    intro i
    rw [List.foldl_cons, hg, ih, List.map_cons, List.sum_cons]
    ring

/-- Specification-side term contribution of the claim: 10 per occurrence in
the blob, +50 for a topic hit, +30 per matching tag. -/
def termContribution (m : Metadata) (word : GoStr) : Int :=
  (countSub (searchText m) word : Int) * 10 +
    (if containsSub (toLowerStr m.topic) word then 50 else 0) +
    (m.tags.map (fun tag => if containsSub (toLowerStr tag) word then (30 : Int) else 0)).sum

/-- Specification-side phrase contribution of the claim: +100 for a blob
hit plus an additional +150 for a topic hit. -/
def phraseContribution (m : Metadata) (phrase : GoStr) : Int :=
  (if containsSub (searchText m) phrase then 100 else 0) +
    (if containsSub (toLowerStr m.topic) phrase then 150 else 0)

/-- The per-term accumulation loop of `calculateRelevance` sums the term
contributions. -/
theorem terms_foldl (m : Metadata) (l : List GoStr) (i : Int) :
    l.foldl (fun score word =>
      let score := score + (countSub (searchText m) word : Int) * 10
      let score := if containsSub (toLowerStr m.topic) word then score + 50 else score
      m.tags.foldl
        (fun score tag => if containsSub (toLowerStr tag) word then score + 30 else score)
        score) i
    = i + (l.map (termContribution m)).sum := by
  refine foldl_add_shift _ _ (fun s w => ?_) l i
  have htags := foldl_add_shift
    (fun s t => if containsSub (toLowerStr t) w then s + 30 else s)
    (fun t => if containsSub (toLowerStr t) w then (30 : Int) else 0)
    (fun s a => by by_cases h : containsSub (toLowerStr a) w <;> simp [h]) m.tags
  by_cases h : containsSub (toLowerStr m.topic) w <;>
    simp [h, htags, termContribution] <;> ring

/-- The phrase-bonus loop of `calculateRelevance` sums the phrase
contributions. -/
theorem phrases_foldl (m : Metadata) (l : List GoStr) (i : Int) :
    l.foldl (fun score phrase =>
      let score := if containsSub (searchText m) phrase then score + 100 else score
      if containsSub (toLowerStr m.topic) phrase then score + 150 else score) i
    = i + (l.map (phraseContribution m)).sum := by
  refine foldl_add_shift _ _ (fun s p => ?_) l i
  by_cases h1 : containsSub (searchText m) p <;>
    by_cases h2 : containsSub (toLowerStr m.topic) p <;>
      simp [h1, h2, phraseContribution] <;> ring

/-- C5: for a candidate that passes the exclusion, required and phrase
gates, the lexical score is the sum over every token of `normal ++
required` of 10 per non-overlapping blob occurrence, +50 for a topic hit
and +30 per matching tag, plus, per phrase, +100 for a blob hit and an
additional +150 for a topic hit; required tokens score in addition to
gating, and no exclusion is reported. -/
theorem C5_lexical_score_formula (q : searchQuery) (m : Metadata)
    (hex : ∀ ex ∈ q.excluded, containsSub (searchText m) ex = false)
    (hreq : ∀ rq ∈ q.required, containsSub (searchText m) rq = true)
    (hph : ∀ ph ∈ q.phrases, containsSub (searchText m) ph = true) :
    calculateRelevance q m =
      (((q.normal ++ q.required).map (termContribution m)).sum +
        (q.phrases.map (phraseContribution m)).sum, false) := by
  have h1 : q.excluded.any (fun ex => containsSub (searchText m) ex) = false := by
    simp only [List.any_eq_false]
    intro x hx
    simp [hex x hx]
  have h2 : q.required.any (fun rq => !containsSub (searchText m) rq) = false := by
    simp only [List.any_eq_false]
    intro x hx
    simp [hreq x hx]
  have h3 : q.phrases.any (fun ph => !containsSub (searchText m) ph) = false := by
    simp only [List.any_eq_false]
    intro x hx
    simp [hph x hx]
  rw [calculateRelevance]
  simp only [h1, h2, h3, Bool.false_eq_true, if_false]
  rw [terms_foldl, phrases_foldl]
  simp

/-- Concrete candidate record used by the C5 witness. -/
def meta5 : Metadata :=
  { topic := "golang-notes".toList, notes := "hello go".toList,
    relatedBranch := [], tags := ["gopher".toList], embedding := [] }

/-- Concrete parsed query used by the C5 witness. -/
def query5 : searchQuery := parseSearchQuery ("+go hello".toList)

/-- Witness for C5: the query `+go hello` scored against a concrete
candidate record. -/
theorem C5_lexical_score_formula_witness :
    ((∀ ex ∈ query5.excluded, containsSub (searchText meta5) ex = false) ∧
      (∀ rq ∈ query5.required, containsSub (searchText meta5) rq = true) ∧
      (∀ ph ∈ query5.phrases, containsSub (searchText meta5) ph = true)) ∧
    calculateRelevance query5 meta5 =
      (((query5.normal ++ query5.required).map (termContribution meta5)).sum +
        (query5.phrases.map (phraseContribution meta5)).sum, false) :=
  ⟨⟨by decide, by decide, by decide⟩,
    C5_lexical_score_formula query5 meta5 (by decide) (by decide) (by decide)⟩

/-- Little-endian byte layout of one float64 value, represented by its
64-bit pattern `w`: the eight bytes `w >> 8i mod 256`, least significant
first, exactly what `binary.Write(file, binary.LittleEndian, val)` emits
(internal/embeddings WriteEmbedding). -/
def word64ToBytesLE (w : Nat) : List Nat :=
  [w % 256, w / 2 ^ 8 % 256, w / 2 ^ 16 % 256, w / 2 ^ 24 % 256,
    w / 2 ^ 32 % 256, w / 2 ^ 40 % 256, w / 2 ^ 48 % 256, w / 2 ^ 56 % 256]

/-- Reassembles one 64-bit pattern from eight little-endian bytes, exactly
what `binary.Read(file, binary.LittleEndian, &vec[i])` consumes. -/
def bytesToWord64LE (b : List Nat) : Nat :=
  match b with
  | [b0, b1, b2, b3, b4, b5, b6, b7] =>
    b0 + b1 * 2 ^ 8 + b2 * 2 ^ 16 + b3 * 2 ^ 24 + b4 * 2 ^ 32 + b5 * 2 ^ 40 +
      b6 * 2 ^ 48 + b7 * 2 ^ 56
  | _ => 0

/-- Model of `WriteEmbedding` (internal/embeddings): reject an empty
vector, otherwise write each element in order as 8 little-endian bytes with
no header; the file contents are the returned byte list.  A float64 element
is represented by its 64-bit pattern, so list equality is bit-exactness. -/
def WriteEmbedding (vec : List Nat) : Except String (List Nat) :=
  if vec.length = 0 then .error ("embedding vector cannot be empty")
  else .ok (vec.flatMap word64ToBytesLE)

/-- The element-reading loop of `ReadEmbedding`: consume consecutive 8-byte
groups (the caller guarantees the byte count is a positive multiple of 8,
so the catch-all only fires at the end of the input). -/
def readWords : List Nat → List Nat
  | b0 :: b1 :: b2 :: b3 :: b4 :: b5 :: b6 :: b7 :: rest =>
    bytesToWord64LE [b0, b1, b2, b3, b4, b5, b6, b7] :: readWords rest
  | _ => []

/-- Model of `ReadEmbedding` (internal/embeddings): reject an empty file
and a byte count that is not a multiple of 8, otherwise decode
`size / 8` little-endian float64 values. -/
def ReadEmbedding (bytes : List Nat) : Except String (List Nat) :=
  if bytes.length = 0 then .error ("embedding file is empty")
  else if bytes.length % 8 ≠ 0 then .error ("invalid embedding file size")
  else .ok (readWords bytes)

/-- One 64-bit pattern survives the byte-level round trip. -/
theorem word64_roundtrip (w : Nat) (h : w < 2 ^ 64) :
    bytesToWord64LE (word64ToBytesLE w) = w := by
  simp only [word64ToBytesLE, bytesToWord64LE]
  omega

/-- The byte stream of a vector has eight bytes per element. -/
theorem flatMap_word64_length (v : List Nat) :
    (v.flatMap word64ToBytesLE).length = 8 * v.length := by
  induction v with
  | nil => simp
  | cons w t ih => simp [word64ToBytesLE, ih]; ring

/-- Decoding the concatenated byte stream recovers the represented vector
element by element. -/
theorem readWords_flatMap (v : List Nat) (hbits : ∀ w ∈ v, w < 2 ^ 64) :
    readWords (v.flatMap word64ToBytesLE) = v := by
  induction v with
  | nil => simp [readWords]
  | cons w t ih =>
    have hw : w < 2 ^ 64 := hbits w (by simp)
    have ht : ∀ x ∈ t, x < 2 ^ 64 := fun x hx => hbits x (by simp [hx])
    have key : readWords ((w :: t).flatMap word64ToBytesLE)
        = bytesToWord64LE (word64ToBytesLE w) :: readWords (t.flatMap word64ToBytesLE) := rfl
    rw [key, word64_roundtrip w hw, ih ht]

/-- C7: writing any non-empty vector of 64-bit float patterns with
`WriteEmbedding` and decoding the produced bytes with `ReadEmbedding`
recovers the vector exactly, element-wise and bit-identically. -/
theorem C7_embedding_roundtrip (v : List Nat) (hne : v ≠ [])
    (hbits : ∀ w ∈ v, w < 2 ^ 64) :
    ∃ bs, WriteEmbedding v = Except.ok bs ∧ ReadEmbedding bs = Except.ok v := by
  have hlen : v.length ≠ 0 := fun h => hne (List.length_eq_zero.mp h)
  refine ⟨v.flatMap word64ToBytesLE, ?_, ?_⟩
  · rw [WriteEmbedding, if_neg hlen]
  · have h8 : (v.flatMap word64ToBytesLE).length = 8 * v.length := flatMap_word64_length v
    rw [ReadEmbedding, if_neg (by omega), if_neg (by omega), readWords_flatMap v hbits]

/-- Witness for C7 at the two-element vector `[3, 2^64 - 1]`. -/
theorem C7_embedding_roundtrip_witness :
    ([3, 2 ^ 64 - 1] ≠ ([] : List Nat) ∧ ∀ w ∈ [3, 2 ^ 64 - 1], w < 2 ^ 64) ∧
      ∃ bs, WriteEmbedding [3, 2 ^ 64 - 1] = Except.ok bs ∧
        ReadEmbedding bs = Except.ok [3, 2 ^ 64 - 1] :=
  ⟨⟨by decide, by decide⟩, C7_embedding_roundtrip [3, 2 ^ 64 - 1] (by decide) (by decide)⟩

/-- Sum of squares of a vector: the `normA`/`normB`/`sum` loop accumulators
of `CosineSimilarity` and `Magnitude` (internal/embeddings) before the
square root is taken. -/
def sumSquares {R : Type} [LinearOrderedField R] (v : List R) : R :=
  (v.map (fun x => x * x)).sum

/-- The dot-product accumulator of `CosineSimilarity`
(internal/embeddings), over the common indices of the two vectors (the
function is only reached when the lengths agree). -/
def dotSum {R : Type} [LinearOrderedField R] (a b : List R) : R :=
  (List.zipWith (fun x y => x * y) a b).sum

/-- Model of `Magnitude` (internal/embeddings): 0 for an empty vector,
otherwise the square root of the sum of squares.  `sqrt` abstracts
`math.Sqrt`; the reference instantiation is `Real.sqrt`. -/
def Magnitude {R : Type} [LinearOrderedField R] (sqrt : R → R) (v : List R) : R :=
  if v.length = 0 then 0 else sqrt (sumSquares v)

/-- Model of `CosineSimilarity` (internal/embeddings): error on a length
mismatch, on empty vectors and on a zero norm; otherwise return
`dot / (normA * normB)` clamped to the closed interval [-1, 1]. -/
def CosineSimilarity {R : Type} [LinearOrderedField R] (sqrt : R → R) (a b : List R) :
    Except String R :=
  if a.length ≠ b.length then .error ("vectors must have same length")
  else if a.length = 0 then .error ("vectors cannot be empty")
  else
    let dotProduct := dotSum a b
    let normA := sqrt (sumSquares a)
    let normB := sqrt (sumSquares b)
    if normA = 0 ∨ normB = 0 then .error ("vector norm cannot be zero")
    else
      let similarity := dotProduct / (normA * normB)
      .ok (if similarity > 1 then 1 else if similarity < -1 then -1 else similarity)

/-- C6: on equal-length non-empty real vectors whose magnitudes are both
non-zero, `CosineSimilarity` (instantiated with exact real arithmetic and
`Real.sqrt`) succeeds, and the clamp bounds the returned value inside
[-1, 1]. -/
theorem C6_cosine_similarity_bounds (a b : List ℝ) (hlen : a.length = b.length)
    (hne : a ≠ []) (hma : Magnitude Real.sqrt a ≠ 0) (hmb : Magnitude Real.sqrt b ≠ 0) :
    ∃ r, CosineSimilarity Real.sqrt a b = Except.ok r ∧ -1 ≤ r ∧ r ≤ 1 := by
  have hla : a.length ≠ 0 := fun h => hne (List.length_eq_zero.mp h)
  have hlb : b.length ≠ 0 := by rw [← hlen]; exact hla
  have hA : Real.sqrt (sumSquares a) ≠ 0 := by
    rw [Magnitude, if_neg hla] at hma
    exact hma
  have hB : Real.sqrt (sumSquares b) ≠ 0 := by
    rw [Magnitude, if_neg hlb] at hmb
    exact hmb
  simp only [CosineSimilarity]
  rw [if_neg (fun h => h hlen), if_neg hla, if_neg (fun h => h.elim hA hB)]
  refine ⟨_, rfl, ?_, ?_⟩ <;>
    by_cases h1 : dotSum a b / (Real.sqrt (sumSquares a) * Real.sqrt (sumSquares b)) > 1 <;>
      by_cases h2 : dotSum a b / (Real.sqrt (sumSquares a) * Real.sqrt (sumSquares b)) < -1 <;>
        simp [h1, h2] <;> linarith

/-- Witness for C6 at the one-dimensional vectors a = b = [1]. -/
theorem C6_cosine_similarity_bounds_witness :
    (([1] : List ℝ).length = ([1] : List ℝ).length ∧ ([1] : List ℝ) ≠ [] ∧
      Magnitude Real.sqrt ([1] : List ℝ) ≠ 0) ∧
    ∃ r, CosineSimilarity Real.sqrt ([1] : List ℝ) ([1] : List ℝ) = Except.ok r ∧
      -1 ≤ r ∧ r ≤ 1 :=
  ⟨⟨rfl, by simp, by simp [Magnitude, sumSquares]⟩,
    C6_cosine_similarity_bounds [1] [1] rfl (by simp) (by simp [Magnitude, sumSquares])
      (by simp [Magnitude, sumSquares])⟩

/-- The result record `searchResult` of cmd/search.go: the candidate's
identity and metadata together with the combined `score`, the integer
`keywordScore`, the rescaled `semanticScore`, and the `hasEmbedding` /
`usedSemantic` flags. -/
structure searchResult (R : Type) where
  branch : GoStr
  metadata : Metadata
  score : R
  keywordScore : Int
  semanticScore : R
  hasEmbedding : Bool
  usedSemantic : Bool
deriving DecidableEq

/-- Decidable equality for `Except` outcomes, needed to evaluate the model
on concrete inputs. -/
def exceptDecEq {ε α : Type} [DecidableEq ε] [DecidableEq α] :
    DecidableEq (Except ε α) := fun x y =>
  match x, y with
  | .ok a, .ok b =>
    match decEq a b with
    | isTrue h => isTrue (h ▸ rfl)
    | isFalse h => isFalse (fun e => h (Except.ok.inj e))
  | .error a, .error b =>
    match decEq a b with
    | isTrue h => isTrue (h ▸ rfl)
    | isFalse h => isFalse (fun e => h (Except.error.inj e))
  | .ok _, .error _ => isFalse (fun e => Except.noConfusion e)
  | .error _, .ok _ => isFalse (fun e => Except.noConfusion e)

instance {ε α : Type} [DecidableEq ε] [DecidableEq α] : DecidableEq (Except ε α) :=
  exceptDecEq

/-- One candidate snapshot as it reaches the scoring stage of the
`runSearch` loop: its branch name, its parsed metadata, and the outcome of
loading its stored embedding.  `embeddingData` records the combined result
of the effectful chain `gitShow` → temp-file write → `ReadEmbedding`
(git and file I/O are external collaborators): `Except.ok v` when the
stored vector was read successfully, `Except.error e` when any step of the
chain failed. -/
structure Candidate (R : Type) where
  branch : GoStr
  metadata : Metadata
  embeddingData : Except String (List R)
deriving DecidableEq

/-- The final-score combination of `runSearch` (cmd/search.go): in hybrid
mode the keyword score is halved, capped at 100 and combined with the
configured weights; in keyword-only mode the raw keyword score is the
final score. -/
def computeFinalScore {R : Type} [LinearOrderedField R] (keywordWeight semanticWeight : R)
    (keywordScore : Int) (semanticScore : R) (usedSemantic : Bool) : R :=
  if usedSemantic then
    let normalizedKeyword : R := (keywordScore : R) / 2
    let normalizedKeyword := if normalizedKeyword > 100 then 100 else normalizedKeyword
    keywordWeight * normalizedKeyword + semanticWeight * semanticScore
  else (keywordScore : R)

/-- The per-candidate semantic-similarity step of `runSearch`
(cmd/search.go): only when a query embedding was obtained, the candidate
references a stored embedding, the stored embedding was read successfully
and `CosineSimilarity` returns without error is the similarity rescaled to
[0, 100] and are the `hasEmbedding` / `usedSemantic` flags set; every
failure leaves `(0, false, false)`. -/
def semanticStep {R : Type} [LinearOrderedField R] (sqrt : R → R)
    (queryEmbedding : Option (List R)) (c : Candidate R) : R × Bool × Bool :=
  match queryEmbedding with
  | some qe =>
    if c.metadata.embedding ≠ [] then
      match c.embeddingData with
      | .ok snapshotEmbedding =>
        match CosineSimilarity sqrt qe snapshotEmbedding with
        | .ok similarity => ((similarity + 1) * 50, true, true)
        | .error _ => (0, false, false)
      | .error _ => (0, false, false)
    else (0, false, false)
  | none => (0, false, false)

/-- The per-candidate body of the `runSearch` loop (cmd/search.go): gate
through `calculateRelevance` (an excluded candidate is skipped), run the
semantic step, combine the scores, and keep the candidate only when the
final score or the keyword score is positive. -/
def scoreCandidate {R : Type} [LinearOrderedField R] (sqrt : R → R)
    (parsedQuery : searchQuery) (queryEmbedding : Option (List R))
    (keywordWeight semanticWeight : R) (c : Candidate R) : Option (searchResult R) :=
  let rel := calculateRelevance parsedQuery c.metadata
  if rel.2 then none
  else
    let sem := semanticStep sqrt queryEmbedding c
    let finalScore := computeFinalScore keywordWeight semanticWeight rel.1 sem.1 sem.2.2
    if finalScore > 0 ∨ rel.1 > 0 then
      some { branch := c.branch, metadata := c.metadata, score := finalScore,
             keywordScore := rel.1, semanticScore := sem.1,
             hasEmbedding := sem.2.1, usedSemantic := sem.2.2 }
    else none

/-- The result list accumulated by the `runSearch` loop before sorting, in
candidate order. -/
def includedResults {R : Type} [LinearOrderedField R] (sqrt : R → R)
    (parsedQuery : searchQuery) (queryEmbedding : Option (List R))
    (keywordWeight semanticWeight : R) (candidates : List (Candidate R)) :
    List (searchResult R) :=
  candidates.filterMap
    (scoreCandidate sqrt parsedQuery queryEmbedding keywordWeight semanticWeight)

/-- Modelled from the spec: the sorting step of `runSearch` calls Go
`sort.Slice` — standard-library code outside this repository's sources —
with the comparator `results[i].Score > results[j].Score`.  Go documents
`sort.Slice` as sorting by the comparator while being not guaranteed to be
stable, so the step is modelled by that contract: the output is a
permutation of the input that is pairwise in non-increasing score order. -/
def SortSliceSpec {R : Type} [LinearOrderedField R]
    (inp out : List (searchResult R)) : Prop :=
  inp.Perm out ∧ out.Pairwise (fun r s => s.score ≤ r.score)

/-- A possible result list of one `runSearch` call on the candidates that
reached the scoring stage: some sorted rearrangement (per the `sort.Slice`
contract) of the included results. -/
def RankOutput {R : Type} [LinearOrderedField R] (sqrt : R → R)
    (parsedQuery : searchQuery) (queryEmbedding : Option (List R))
    (keywordWeight semanticWeight : R) (candidates : List (Candidate R))
    (out : List (searchResult R)) : Prop :=
  SortSliceSpec
    (includedResults sqrt parsedQuery queryEmbedding keywordWeight semanticWeight candidates)
    out

/-- Every result of a ranking output originates from a candidate that the
per-candidate scoring kept. -/
theorem rankOutput_mem {R : Type} [LinearOrderedField R] (sqrt : R → R)
    (parsedQuery : searchQuery) (queryEmbedding : Option (List R))
    (keywordWeight semanticWeight : R) (candidates : List (Candidate R))
    (out : List (searchResult R))
    (h : RankOutput sqrt parsedQuery queryEmbedding keywordWeight semanticWeight candidates out)
    (r : searchResult R) (hr : r ∈ out) :
    ∃ c ∈ candidates,
      scoreCandidate sqrt parsedQuery queryEmbedding keywordWeight semanticWeight c = some r :=
  List.mem_filterMap.mp (h.1.mem_iff.mpr hr)

/-- A successful per-candidate scoring determines every field of the result
from the candidate: identity, metadata, keyword score, semantic components
and the combined final score. -/
theorem scoreCandidate_some {R : Type} [LinearOrderedField R] (sqrt : R → R)
    (pq : searchQuery) (qe : Option (List R)) (kw sw : R) (c : Candidate R)
    (r : searchResult R) (h : scoreCandidate sqrt pq qe kw sw c = some r) :
    r.branch = c.branch ∧ r.metadata = c.metadata ∧
    r.keywordScore = (calculateRelevance pq c.metadata).1 ∧
    r.semanticScore = (semanticStep sqrt qe c).1 ∧
    r.hasEmbedding = (semanticStep sqrt qe c).2.1 ∧
    r.usedSemantic = (semanticStep sqrt qe c).2.2 ∧
    r.score = computeFinalScore kw sw r.keywordScore r.semanticScore r.usedSemantic := by
  simp only [scoreCandidate] at h
  by_cases hrel : (calculateRelevance pq c.metadata).2
  · simp [hrel] at h
  · simp only [hrel, Bool.false_eq_true, if_false] at h
    split at h
    · injection h with h'
      subst h'
      simp
    · exact absurd h (by simp)

/-- The semantic flags are set only after the full success chain: a query
embedding, a readable stored embedding, and an error-free cosine
similarity. -/
theorem semanticStep_usedSemantic {R : Type} [LinearOrderedField R] (sqrt : R → R)
    (qe : Option (List R)) (c : Candidate R)
    (h : (semanticStep sqrt qe c).2.2 = true) :
    ∃ e, qe = some e ∧ ∃ v, c.embeddingData = Except.ok v ∧
      ∃ s, CosineSimilarity sqrt e v = Except.ok s := by
  rcases qe with _ | e
  · simp [semanticStep] at h
  · by_cases hemb : c.metadata.embedding ≠ []
    · rcases hdata : c.embeddingData with err | v
      · simp [semanticStep, hdata, hemb] at h
      · rcases hcs : CosineSimilarity sqrt e v with err | s
        · simp [semanticStep, hdata, hcs, hemb] at h
        · exact ⟨e, rfl, v, rfl, s, hcs⟩
    · simp [semanticStep, hemb] at h

/-- C1: when semantic scoring was used the final score is
`keyword_weight * min(keywordScore / 2, 100) + semantic_weight *
semanticScore`; otherwise it is the raw keyword score unweighted; in
particular weights 0.3 / 0.7 with keyword score 20 and semantic score 80
give 59. -/
theorem C1_final_score_formula :
    (∀ (R : Type) [LinearOrderedField R] (kw sw : R) (ks : Int) (ss : R),
      computeFinalScore kw sw ks ss true = kw * min ((ks : R) / 2) 100 + sw * ss ∧
      computeFinalScore kw sw ks ss false = (ks : R)) ∧
    computeFinalScore (R := ℚ) (3 / 10) (7 / 10) 20 80 true = 59 := by
  constructor
  · intro R _ kw sw ks ss
    constructor
    · rw [computeFinalScore]
      rcases le_or_lt ((ks : R) / 2) 100 with h | h
      · rw [if_pos rfl]
        simp [not_lt.mpr h, min_eq_left h]
      · rw [if_pos rfl]
        simp [h, min_eq_right h.le]
    · rw [computeFinalScore, if_neg (by simp)]
  · norm_num [computeFinalScore]

/-- C2: a candidate whose lowercase blob contains an excluded token, lacks
a required token, or lacks a phrase is reported `(0, true)` by
`calculateRelevance`, produces no scored result, and never appears in any
ranking output: every output entry stems from a different candidate whose
scoring succeeded. -/
theorem C2_gates_exclude_candidate (R : Type) [LinearOrderedField R] (sqrt : R → R)
    (pq : searchQuery) (qe : Option (List R)) (kw sw : R)
    (cands : List (Candidate R)) (c : Candidate R)
    (hgate : (∃ ex ∈ pq.excluded, containsSub (searchText c.metadata) ex = true) ∨
      (∃ rq ∈ pq.required, containsSub (searchText c.metadata) rq = false) ∨
      (∃ ph ∈ pq.phrases, containsSub (searchText c.metadata) ph = false)) :
    calculateRelevance pq c.metadata = (0, true) ∧
    scoreCandidate sqrt pq qe kw sw c = none ∧
    (∀ out, RankOutput sqrt pq qe kw sw cands out →
      ∀ r ∈ out, ∃ c' ∈ cands, c' ≠ c ∧
        scoreCandidate sqrt pq qe kw sw c' = some r) := by
  have hrel : calculateRelevance pq c.metadata = (0, true) := by
    by_cases h1 : pq.excluded.any (fun ex => containsSub (searchText c.metadata) ex)
    · simp [calculateRelevance, h1]
    · by_cases h2 : pq.required.any (fun rq => !containsSub (searchText c.metadata) rq)
      · simp [calculateRelevance, h1, h2]
      · by_cases h3 : pq.phrases.any (fun ph => !containsSub (searchText c.metadata) ph)
        · simp [calculateRelevance, h1, h2, h3]
        · exfalso
          rcases hgate with ⟨x, hm, hc⟩ | ⟨x, hm, hc⟩ | ⟨x, hm, hc⟩
          · exact h1 (List.any_eq_true.mpr ⟨x, hm, by simp [hc]⟩)
          · exact h2 (List.any_eq_true.mpr ⟨x, hm, by simp [hc]⟩)
          · exact h3 (List.any_eq_true.mpr ⟨x, hm, by simp [hc]⟩)
  have hnone : scoreCandidate sqrt pq qe kw sw c = none := by
    simp [scoreCandidate, hrel]
  refine ⟨hrel, hnone, fun out hout r hr => ?_⟩
  obtain ⟨c', hc', hsc⟩ := rankOutput_mem sqrt pq qe kw sw cands out hout r hr
  refine ⟨c', hc', fun e => ?_, hsc⟩
  rw [e, hnone] at hsc
  exact Option.noConfusion hsc

/-- C3: every result of a ranking output has `usedSemantic = true` only if
a query embedding was obtained, the originating candidate's stored
embedding was read successfully, and the cosine similarity between the two
returned without error; in every other case the flag is false. -/
theorem C3_used_semantic_only_on_success (R : Type) [LinearOrderedField R] (sqrt : R → R)
    (pq : searchQuery) (qe : Option (List R)) (kw sw : R)
    (cands : List (Candidate R)) (out : List (searchResult R))
    (hout : RankOutput sqrt pq qe kw sw cands out) :
    ∀ r ∈ out, ∃ c ∈ cands,
      scoreCandidate sqrt pq qe kw sw c = some r ∧
      (r.usedSemantic = true →
        ∃ e, qe = some e ∧ ∃ v, c.embeddingData = Except.ok v ∧
          ∃ s, CosineSimilarity sqrt e v = Except.ok s) := by
  intro r hr
  obtain ⟨c, hc, hsc⟩ := rankOutput_mem sqrt pq qe kw sw cands out hout r hr
  refine ⟨c, hc, hsc, fun hsem => ?_⟩
  have hflag := (scoreCandidate_some sqrt pq qe kw sw c r hsc).2.2.2.2.2.1
  exact semanticStep_usedSemantic sqrt qe c (by rw [← hflag]; exact hsem)

/-- The two semantic flags are assigned together in the semantic step. -/
theorem semanticStep_flags_agree (R : Type) [LinearOrderedField R] (sqrt : R → R)
    (qe : Option (List R)) (c : Candidate R) :
    (semanticStep sqrt qe c).2.1 = (semanticStep sqrt qe c).2.2 := by
  rcases qe with _ | e
  · simp [semanticStep]
  · by_cases hemb : c.metadata.embedding ≠ []
    · rcases hdata : c.embeddingData with err | v
      · simp [semanticStep, hdata, hemb]
      · rcases hcs : CosineSimilarity sqrt e v with err | s <;>
          simp [semanticStep, hdata, hcs, hemb]
    · simp [semanticStep, hemb]

/-- C10: in every result of a ranking output the `hasEmbedding` flag equals
the `usedSemantic` flag — both are set only together, after a successful
embedding read and an error-free similarity computation. -/
theorem C10_has_embedding_eq_used_semantic (R : Type) [LinearOrderedField R]
    (sqrt : R → R) (pq : searchQuery) (qe : Option (List R)) (kw sw : R)
    (cands : List (Candidate R)) (out : List (searchResult R))
    (hout : RankOutput sqrt pq qe kw sw cands out) :
    ∀ r ∈ out, r.hasEmbedding = r.usedSemantic := by
  intro r hr
  obtain ⟨c, _, hsc⟩ := rankOutput_mem sqrt pq qe kw sw cands out hout r hr
  have h := scoreCandidate_some sqrt pq qe kw sw c r hsc
  rw [h.2.2.2.2.1, h.2.2.2.2.2.1]
  exact semanticStep_flags_agree R sqrt qe c

/-- C9: if loading a candidate's stored embedding failed or the cosine
similarity against the query embedding errored, the candidate is scored
exactly as in a lexical-only call: kept (not dropped) unless excluded or
zero-scored, with the raw keyword score as final score and all semantic
fields cleared. -/
theorem C9_failure_falls_back (R : Type) [LinearOrderedField R] (sqrt : R → R)
    (pq : searchQuery) (e : List R) (kw sw : R) (c : Candidate R)
    (hfail : (∃ msg, c.embeddingData = Except.error msg) ∨
      (∃ v, c.embeddingData = Except.ok v ∧
        ∃ msg, CosineSimilarity sqrt e v = Except.error msg)) :
    scoreCandidate sqrt pq (some e) kw sw c = scoreCandidate sqrt pq none kw sw c ∧
    (∀ r, scoreCandidate sqrt pq (some e) kw sw c = some r →
      r.score = (r.keywordScore : R) ∧
      r.keywordScore = (calculateRelevance pq c.metadata).1 ∧
      r.semanticScore = 0 ∧ r.hasEmbedding = false ∧ r.usedSemantic = false) ∧
    (scoreCandidate sqrt pq (some e) kw sw c = none →
      (calculateRelevance pq c.metadata).2 = true ∨
        (calculateRelevance pq c.metadata).1 ≤ 0) := by
  have hsem : semanticStep sqrt (some e) c = (0, false, false) := by
    by_cases hemb : c.metadata.embedding ≠ []
    · rcases hfail with ⟨msg, hdata⟩ | ⟨v, hdata, msg, hcs⟩
      · simp [semanticStep, hdata, hemb]
      · simp [semanticStep, hdata, hcs, hemb]
    · simp [semanticStep, hemb]
  have hsem0 : semanticStep sqrt (none : Option (List R)) c = (0, false, false) := by
    simp [semanticStep]
  refine ⟨by simp only [scoreCandidate, hsem, hsem0], fun r hr => ?_, fun hnone => ?_⟩
  · have h := scoreCandidate_some sqrt pq (some e) kw sw c r hr
    have hused : r.usedSemantic = false := by rw [h.2.2.2.2.2.1, hsem]
    have hhas : r.hasEmbedding = false := by rw [h.2.2.2.2.1, hsem]
    have hsemsc : r.semanticScore = 0 := by rw [h.2.2.2.1, hsem]
    have hscore : r.score = (r.keywordScore : R) := by
      rw [h.2.2.2.2.2.2, hused, computeFinalScore, if_neg (by simp)]
    exact ⟨hscore, h.2.2.1, hsemsc, hhas, hused⟩
  · by_contra hcon
    push_neg at hcon
    obtain ⟨h2, h1⟩ := hcon
    have h2' : (calculateRelevance pq c.metadata).2 = false := by
      simpa using h2
    rw [scoreCandidate] at hnone
    simp only [h2', Bool.false_eq_true, if_false, hsem] at hnone
    rw [if_pos (Or.inr (by omega))] at hnone
    exact Option.noConfusion hnone

/-- Insertion step of a descending-score insertion sort, used to show that
the `sort.Slice` contract is always satisfiable. -/
def insertDesc {R : Type} [LinearOrderedField R] (r : searchResult R) :
    List (searchResult R) → List (searchResult R)
  | [] => [r]
  | s :: t => if s.score ≤ r.score then r :: s :: t else s :: insertDesc r t

/-- Insertion sort of results by non-increasing final score. -/
def sortDesc {R : Type} [LinearOrderedField R] :
    List (searchResult R) → List (searchResult R)
  | [] => []
  | r :: t => insertDesc r (sortDesc t)

/-- Inserting an element permutes consing it. -/
theorem perm_insertDesc {R : Type} [LinearOrderedField R] (r : searchResult R)
    (l : List (searchResult R)) : (insertDesc r l).Perm (r :: l) := by
  induction l with
  | nil => simp [insertDesc]
  | cons s t ih =>
    rw [insertDesc]
    split
    · exact List.Perm.refl _
    · exact (ih.cons s).trans (List.Perm.swap r s t)

/-- Insertion preserves the non-increasing score order. -/
theorem pairwise_insertDesc {R : Type} [LinearOrderedField R] (r : searchResult R)
    (l : List (searchResult R)) (h : l.Pairwise (fun a b => b.score ≤ a.score)) :
    (insertDesc r l).Pairwise (fun a b => b.score ≤ a.score) := by
  induction l with
  | nil => simp [insertDesc]
  | cons s t ih =>
    rw [insertDesc]
    have h' := List.pairwise_cons.mp h
    split
    · rename_i hle
      refine List.Pairwise.cons (fun x hx => ?_) h
      rcases List.mem_cons.mp hx with rfl | hx'
      · exact hle
      · exact le_trans (h'.1 x hx') hle
    · rename_i hgt
      refine List.Pairwise.cons (fun x hx => ?_) (ih h'.2)
      have hx' := (perm_insertDesc r t).mem_iff.mp hx
      rcases List.mem_cons.mp hx' with rfl | hx''
      · exact (not_le.mp hgt).le
      · exact h'.1 x hx''

/-- The insertion sort produces a sorted permutation of its input, so the
`sort.Slice` contract admits at least one output. -/
theorem sortDesc_sorts {R : Type} [LinearOrderedField R] (l : List (searchResult R)) :
    l.Perm (sortDesc l) ∧ (sortDesc l).Pairwise (fun a b => b.score ≤ a.score) := by
  induction l with
  | nil => simp [sortDesc]
  | cons r t ih =>
    exact ⟨(ih.1.cons r).trans (perm_insertDesc r (sortDesc t)).symm,
      pairwise_insertDesc r (sortDesc t) ih.2⟩

/-- The stability property asserted by the claim: results with equal final
score keep, in the ranked output, the relative order they had in the
pre-sort candidate-order list. -/
@[reducible] def TiePreserving {R : Type} [LinearOrderedField R]
    (inp out : List (searchResult R)) : Prop :=
  ∀ r ∈ inp, ∀ s ∈ inp, r.score = s.score →
    inp.indexOf r < inp.indexOf s → out.indexOf r < out.indexOf s

/-- Abstract square root used to evaluate the model at `R := ℚ` in
concrete witnesses (the witnesses below only exercise code paths where a
square root of a perfect square, or none at all, is taken). -/
def sqrtQ : ℚ → ℚ := fun x => x

/-- Concrete parsed query used in the ranking witnesses. -/
def pqC4 : searchQuery := parseSearchQuery ("security".toList)

/-- Concrete metadata with no stored embedding reference. -/
def metaC4 : Metadata :=
  { topic := "security-audit".toList, notes := [], relatedBranch := [],
    tags := [], embedding := [] }

/-- First tied candidate of the C4 counterexample. -/
def candC4a : Candidate ℚ :=
  { branch := "snapshot/a".toList, metadata := metaC4, embeddingData := .error ("none") }

/-- Second tied candidate of the C4 counterexample. -/
def candC4b : Candidate ℚ :=
  { branch := "snapshot/b".toList, metadata := metaC4, embeddingData := .error ("none") }

/-- Scored result of the first tied candidate. -/
def resC4a : searchResult ℚ :=
  { branch := "snapshot/a".toList, metadata := metaC4, score := 60, keywordScore := 60,
    semanticScore := 0, hasEmbedding := false, usedSemantic := false }

/-- Scored result of the second tied candidate. -/
def resC4b : searchResult ℚ :=
  { branch := "snapshot/b".toList, metadata := metaC4, score := 60, keywordScore := 60,
    semanticScore := 0, hasEmbedding := false, usedSemantic := false }

/-- The tie-reversing output of the C4 counterexample. -/
def outC4 : List (searchResult ℚ) := [resC4b, resC4a]

/-- The concrete query scores 60 against the concrete metadata. -/
theorem relC4 : calculateRelevance pqC4 metaC4 = (60, false) := by decide

/-- Scoring the first tied candidate. -/
theorem scoreC4a : scoreCandidate sqrtQ pqC4 none 1 1 candC4a = some resC4a := by
  norm_num [scoreCandidate, candC4a, relC4, semanticStep, computeFinalScore, resC4a]

/-- Scoring the second tied candidate. -/
theorem scoreC4b : scoreCandidate sqrtQ pqC4 none 1 1 candC4b = some resC4b := by
  norm_num [scoreCandidate, candC4b, relC4, semanticStep, computeFinalScore, resC4b]

/-- The included results of the C4 scenario, in candidate order. -/
theorem includedC4 :
    includedResults sqrtQ pqC4 none 1 1 [candC4a, candC4b] = [resC4a, resC4b] := by
  simp [includedResults, List.filterMap_cons, scoreC4a, scoreC4b]

/-- The tie-reversing output satisfies the `sort.Slice` contract. -/
theorem rankOutputC4 : RankOutput sqrtQ pqC4 none 1 1 [candC4a, candC4b] outC4 := by
  rw [RankOutput, SortSliceSpec, includedC4]
  exact ⟨by decide, by decide⟩

/-- The tie-reversing output violates tie preservation. -/
theorem tieC4 :
    ¬ TiePreserving (includedResults sqrtQ pqC4 none 1 1 [candC4a, candC4b]) outC4 := by
  rw [includedC4]
  decide

/-- C4 counterexample: with two candidates tied at keyword score 60, the
output that reverses their order is a valid result of the ranker (it
satisfies the documented contract of Go `sort.Slice`, which is not a
stable sort), yet it does not preserve the original relative order of the
equal-score results — refuting the claim's stability assertion at a
concrete input. -/
theorem C4_stability_counterexample :
    RankOutput sqrtQ pqC4 none 1 1 [candC4a, candC4b] outC4 ∧
    ¬ TiePreserving (includedResults sqrtQ pqC4 none 1 1 [candC4a, candC4b]) outC4 :=
  ⟨rankOutputC4, tieC4⟩

/-- C4 (amended): every ranking output is sorted in non-increasing final
score order and is a permutation of the included results, and a valid
output always exists; the relative order of equal-score results is not
otherwise constrained (the sort is not guaranteed stable). -/
theorem C4_sorted_descending (R : Type) [LinearOrderedField R] (sqrt : R → R)
    (pq : searchQuery) (qe : Option (List R)) (kw sw : R)
    (cands : List (Candidate R)) :
    (∀ out, RankOutput sqrt pq qe kw sw cands out →
      out.Pairwise (fun r s => s.score ≤ r.score) ∧
      (includedResults sqrt pq qe kw sw cands).Perm out) ∧
    ∃ out, RankOutput sqrt pq qe kw sw cands out :=
  ⟨fun _ hout => ⟨hout.2, hout.1⟩,
    ⟨sortDesc (includedResults sqrt pq qe kw sw cands),
      (sortDesc_sorts _).1, (sortDesc_sorts _).2⟩⟩

/-- Witness for the amended C4 at the concrete tied scenario. -/
theorem C4_sorted_descending_witness :
    RankOutput sqrtQ pqC4 none 1 1 [candC4a, candC4b] outC4 ∧
    outC4.Pairwise (fun r s => s.score ≤ r.score) :=
  ⟨rankOutputC4,
    ((C4_sorted_descending ℚ sqrtQ pqC4 none 1 1 [candC4a, candC4b]).1 outC4
      rankOutputC4).1⟩
def pqC2 : searchQuery := parseSearchQuery ("-bad".toList)

/-- Concrete candidate whose blob contains the excluded token. -/
def candC2 : Candidate ℚ :=
  { branch := "snapshot/x".toList,
    metadata := { topic := "parser-notes".toList, notes := "bad idea".toList,
                  relatedBranch := [], tags := [], embedding := [] },
    embeddingData := .error ("none") }

/-- Witness for C2: the query `-bad` against a candidate whose notes
contain `bad`. -/
theorem C2_gates_exclude_candidate_witness :
    ((∃ ex ∈ pqC2.excluded, containsSub (searchText candC2.metadata) ex = true) ∨
      (∃ rq ∈ pqC2.required, containsSub (searchText candC2.metadata) rq = false) ∨
      (∃ ph ∈ pqC2.phrases, containsSub (searchText candC2.metadata) ph = false)) ∧
    (calculateRelevance pqC2 candC2.metadata = (0, true) ∧
      scoreCandidate sqrtQ pqC2 none 1 1 candC2 = none ∧
      (∀ out, RankOutput sqrtQ pqC2 none 1 1 [candC2] out →
        ∀ r ∈ out, ∃ c' ∈ [candC2], c' ≠ candC2 ∧
          scoreCandidate sqrtQ pqC2 none 1 1 c' = some r)) :=
  ⟨by decide,
    C2_gates_exclude_candidate ℚ sqrtQ pqC2 none 1 1 [candC2] candC2 (by decide)⟩

/-- Concrete metadata referencing a stored embedding file. -/
def metaC3 : Metadata :=
  { topic := "security-audit".toList, notes := [], relatedBranch := [],
    tags := [], embedding := "embedding.bin".toList }

/-- Concrete candidate with a successfully read stored embedding. -/
def candC3 : Candidate ℚ :=
  { branch := "snapshot/c".toList, metadata := metaC3, embeddingData := .ok [1] }

/-- The hybrid-scored result of the semantic-success candidate. -/
def resC3 : searchResult ℚ :=
  { branch := "snapshot/c".toList, metadata := metaC3, score := 130, keywordScore := 60,
    semanticScore := 100, hasEmbedding := true, usedSemantic := true }

/-- Keyword score of the concrete query against the embedded metadata. -/
theorem relC3 : calculateRelevance pqC4 metaC3 = (60, false) := by decide

/-- The cosine similarity of the two concrete unit vectors. -/
theorem cosC3 : CosineSimilarity sqrtQ [1] ([1] : List ℚ) = Except.ok 1 := by
  norm_num [CosineSimilarity, dotSum, sumSquares, sqrtQ]

/-- Hybrid scoring of the semantic-success candidate. -/
theorem scoreC3 : scoreCandidate sqrtQ pqC4 (some [1]) 1 1 candC3 = some resC3 := by
  have hne : ¬ (metaC3.embedding = []) := by decide
  norm_num [scoreCandidate, candC3, relC3, semanticStep, hne, cosC3,
    computeFinalScore, resC3]

/-- The singleton result list is a valid ranking output. -/
theorem rankC3 : RankOutput sqrtQ pqC4 (some [1]) 1 1 [candC3] [resC3] := by
  have hinc : includedResults sqrtQ pqC4 (some [1]) 1 1 [candC3] = [resC3] := by
    simp [includedResults, List.filterMap_cons, scoreC3]
  rw [RankOutput, SortSliceSpec, hinc]
  exact ⟨List.Perm.refl _, by decide⟩

/-- Witness for C3 at a concrete semantic-success ranking. -/
theorem C3_used_semantic_only_on_success_witness :
    (RankOutput sqrtQ pqC4 (some [1]) 1 1 [candC3] [resC3] ∧ resC3 ∈ [resC3]) ∧
    ∃ c ∈ [candC3], scoreCandidate sqrtQ pqC4 (some [1]) 1 1 c = some resC3 ∧
      (resC3.usedSemantic = true →
        ∃ e, (some [1] : Option (List ℚ)) = some e ∧
          ∃ v, c.embeddingData = Except.ok v ∧
            ∃ s, CosineSimilarity sqrtQ e v = Except.ok s) :=
  ⟨⟨rankC3, by decide⟩,
    C3_used_semantic_only_on_success ℚ sqrtQ pqC4 (some [1]) 1 1 [candC3] [resC3]
      rankC3 resC3 (by decide)⟩

/-- Witness for C10 at the same concrete semantic-success ranking. -/
theorem C10_has_embedding_eq_used_semantic_witness :
    (RankOutput sqrtQ pqC4 (some [1]) 1 1 [candC3] [resC3] ∧ resC3 ∈ [resC3]) ∧
    resC3.hasEmbedding = resC3.usedSemantic :=
  ⟨⟨rankC3, by decide⟩,
    C10_has_embedding_eq_used_semantic ℚ sqrtQ pqC4 (some [1]) 1 1 [candC3] [resC3]
      rankC3 resC3 (by decide)⟩

/-- Concrete candidate whose stored embedding cannot be read. -/
def candC9 : Candidate ℚ :=
  { branch := "snapshot/d".toList, metadata := metaC3,
    embeddingData := .error ("corrupt data") }

/-- Witness for C9: a candidate with an unreadable stored embedding is
scored exactly as in a lexical-only call. -/
theorem C9_failure_falls_back_witness :
    ((∃ msg, candC9.embeddingData = Except.error msg) ∨
      (∃ v, candC9.embeddingData = Except.ok v ∧
        ∃ msg, CosineSimilarity sqrtQ [1] v = Except.error msg)) ∧
    (scoreCandidate sqrtQ pqC4 (some [1]) 1 1 candC9 =
        scoreCandidate sqrtQ pqC4 none 1 1 candC9 ∧
      (∀ r, scoreCandidate sqrtQ pqC4 (some [1]) 1 1 candC9 = some r →
        r.score = (r.keywordScore : ℚ) ∧
        r.keywordScore = (calculateRelevance pqC4 candC9.metadata).1 ∧
        r.semanticScore = 0 ∧ r.hasEmbedding = false ∧ r.usedSemantic = false) ∧
      (scoreCandidate sqrtQ pqC4 (some [1]) 1 1 candC9 = none →
        (calculateRelevance pqC4 candC9.metadata).2 = true ∨
          (calculateRelevance pqC4 candC9.metadata).1 ≤ 0)) :=
  ⟨Or.inl ⟨"corrupt data", rfl⟩,
    C9_failure_falls_back ℚ sqrtQ pqC4 [1] 1 1 candC9 (Or.inl ⟨"corrupt data", rfl⟩)⟩
